import Mathlib

/-
Shallow embedding of the senscience/notebooks repository: the two
exploration notebooks (marine biodiversity `part_000`; MomCare maternal
health `Heddema_MomCare_Tanzania/notebook.ipynb`).  The embedded pieces are
the column normalizer, the aggregator (`groupby`/`agg`/`sort_values`), the
cohort assigner, `decode_if_bytes`, and the patient-clinic network builder.
Strings are modeled as `String` or `List Char`; tables as lists of rows.
-/

namespace Notebooks

/-! ### Generic list helpers: first-seen deduplication -/

/-- Worker for `firstSeen`: `seen` holds the elements already emitted. -/
def firstSeenGo [DecidableEq α] (seen : List α) : List α → List α
  | [] => []
  | x :: xs =>
    if x ∈ seen then firstSeenGo seen xs
    else x :: firstSeenGo (x :: seen) xs

/-- Deduplicate a list keeping the first occurrence of each element, in
first-seen order (the key order produced by iterating a pandas Series). -/
def firstSeen [DecidableEq α] (l : List α) : List α :=
  firstSeenGo [] l

theorem mem_firstSeenGo [DecidableEq α] (l : List α) :
    ∀ (seen : List α) (a : α),
      a ∈ firstSeenGo seen l ↔ a ∈ l ∧ a ∉ seen := by
  induction l with
  | nil => intro seen a; simp [firstSeenGo]
  | cons x xs ih =>
    intro seen a
    simp only [firstSeenGo]
    by_cases hx : x ∈ seen
    · rw [if_pos hx, ih]
      constructor
      · exact fun h => ⟨List.mem_cons_of_mem x h.1, h.2⟩
      · rintro ⟨hmem, hns⟩
        rcases List.mem_cons.mp hmem with rfl | hmem'
        · exact absurd hx hns
        · exact ⟨hmem', hns⟩
    · rw [if_neg hx]
      simp only [List.mem_cons, ih]
      constructor
      · rintro (rfl | ⟨hmem, hns⟩)
        · exact ⟨Or.inl rfl, hx⟩
        · exact ⟨Or.inr hmem, fun hs => hns (Or.inr hs)⟩
      · rintro ⟨rfl | hmem, hns⟩
        · exact Or.inl rfl
        · by_cases hax : a = x
          · exact Or.inl hax
          · exact Or.inr ⟨hmem, fun h => h.elim hax hns⟩

theorem mem_firstSeen [DecidableEq α] (l : List α) (a : α) :
    a ∈ firstSeen l ↔ a ∈ l := by
  unfold firstSeen
  rw [mem_firstSeenGo]
  simp

theorem nodup_firstSeenGo [DecidableEq α] (l : List α) :
    ∀ seen : List α, (firstSeenGo seen l).Nodup := by
  induction l with
  | nil => intro seen; simp [firstSeenGo]
  | cons x xs ih =>
    intro seen
    simp only [firstSeenGo]
    by_cases hx : x ∈ seen
    · rw [if_pos hx]; exact ih seen
    · rw [if_neg hx]
      refine List.nodup_cons.mpr ⟨fun hmem => ?_, ih (x :: seen)⟩
      exact ((mem_firstSeenGo xs (x :: seen) x).mp hmem).2 (List.mem_cons_self x seen)

theorem nodup_firstSeen [DecidableEq α] (l : List α) :
    (firstSeen l).Nodup :=
  nodup_firstSeenGo l []

/-! ### Column Normalizer

Both notebooks rename columns with
`df.rename(columns=lambda x: x.replace(prefix, "").split("/")[-1])`.
Python `str.replace(old, "")` deletes every non-overlapping occurrence of
`old`, scanning left to right; `split("/")[-1]` keeps the text after the
last `/`.  Column names are modeled as `List Char`. -/

/-- If `p` is a prefix of `s`, return the rest of `s`; otherwise `none`. -/
def dropPre : List Char → List Char → Option (List Char)
  | [], s => some s
  | _ :: _, [] => none
  | a :: as, b :: bs => if a = b then dropPre as bs else none

/-- Fuel-driven worker for `replaceAll` (structural recursion on the fuel
so that concrete instances reduce in the kernel). -/
def replaceAllF (p : List Char) : Nat → List Char → List Char
  | _, [] => []
  | 0, s => s
  | n + 1, c :: cs =>
    match dropPre p (c :: cs) with
    | some rest =>
        if p.isEmpty then c :: replaceAllF p n cs else replaceAllF p n rest
    | none => c :: replaceAllF p n cs

/-- Python `s.replace(p, "")`: delete every non-overlapping occurrence of
`p` in `s`, scanning left to right. -/
def replaceAll (p s : List Char) : List Char :=
  replaceAllF p s.length s

/-- Python `s.split("/")[-1]`: the text after the last `/` of `s`. -/
def lastSegment (s : List Char) : List Char :=
  (s.reverse.takeWhile (fun c => c ≠ '/')).reverse

/-- The column-renaming lambda of both notebooks:
`x.replace(prefix, "").split("/")[-1]`. -/
def normalize_column (p x : List Char) : List Char :=
  lastSegment (replaceAll p x)

/-- The known URL head stripped in the MomCare notebook. -/
def momcarePre : List Char := "https://sen.science/core/".toList

/-- The known URL head stripped in the marine-biodiversity notebook. -/
def marinePre : List Char := "https://sen.science/doi/10.71728/r1rj-f947/".toList

theorem dropPre_length {p s rest : List Char} (h : dropPre p s = some rest) :
    rest.length + p.length = s.length := by
  induction p generalizing s rest with
  | nil =>
    cases s <;> simp only [dropPre, Option.some.injEq] at h <;> simp [← h]
  | cons a as ih =>
    cases s with
    | nil => simp [dropPre] at h
    | cons b bs =>
      simp only [dropPre] at h
      by_cases hab : a = b
      · simp only [hab, if_pos rfl] at h
        have := ih h
        simp only [List.length_cons]
        omega
      · simp [hab] at h

theorem replaceAllF_fuel {p : List Char} :
    ∀ (k : Nat) (s : List Char) (n m : Nat), s.length ≤ k →
      s.length ≤ n → s.length ≤ m → replaceAllF p n s = replaceAllF p m s := by
  intro k
  induction k with
  | zero =>
    intro s n m hk _ _
    have : s = [] := List.eq_nil_of_length_eq_zero (Nat.le_zero.mp hk)
    subst this
    cases n <;> cases m <;> rfl
  | succ k ih =>
    intro s n m hk hn hm
    cases s with
    | nil => cases n <;> cases m <;> rfl
    | cons c cs =>
      simp only [List.length_cons] at hk hn hm
      obtain ⟨n', rfl⟩ : ∃ n', n = n' + 1 :=
        ⟨n - 1, by omega⟩
      obtain ⟨m', rfl⟩ : ∃ m', m = m' + 1 :=
        ⟨m - 1, by omega⟩
      simp only [replaceAllF]
      cases hdp : dropPre p (c :: cs) with
      | none =>
        simp only []
        have := ih cs n' m' (by omega) (by omega) (by omega)
        rw [this]
      | some rest =>
        simp only []
        by_cases hpe : p.isEmpty
        · simp only [hpe, if_pos]
          have := ih cs n' m' (by omega) (by omega) (by omega)
          rw [this]
        · simp only [hpe, if_neg, Bool.false_eq_true, not_false_iff]
          have hlen := dropPre_length hdp
          have hppos : 0 < p.length := by
            cases p with
            | nil => simp [List.isEmpty] at hpe
            | cons _ _ => simp
          have : rest.length ≤ cs.length := by
            simp only [List.length_cons] at hlen; omega
          exact ih rest n' m' (by omega) (by omega) (by omega)

theorem replaceAll_nil (p : List Char) : replaceAll p [] = [] := by
  simp [replaceAll, replaceAllF]

theorem replaceAll_cons_none {p : List Char} {c : Char} {cs : List Char}
    (h : dropPre p (c :: cs) = none) :
    replaceAll p (c :: cs) = c :: replaceAll p cs := by
  unfold replaceAll
  simp only [List.length_cons, replaceAllF, h]

theorem replaceAll_cons_some {p : List Char} {c : Char} {cs rest : List Char}
    (hp : p ≠ []) (h : dropPre p (c :: cs) = some rest) :
    replaceAll p (c :: cs) = replaceAll p rest := by
  unfold replaceAll
  simp only [List.length_cons, replaceAllF, h]
  have hpe : p.isEmpty = false := by
    cases p with
    | nil => exact absurd rfl hp
    | cons _ _ => rfl
  simp only [hpe, Bool.false_eq_true, if_neg, not_false_iff]
  have hlen := dropPre_length h
  have hppos : 0 < p.length := List.length_pos.mpr hp
  exact replaceAllF_fuel (c :: cs).length rest _ _
    (by simp only [List.length_cons] at *; omega)
    (by simp only [List.length_cons] at *; omega)
    (by omega)

theorem dropPre_eq_some_iff {p s : List Char} :
    (∃ rest, dropPre p s = some rest) ↔ p <+: s := by
  induction p generalizing s with
  | nil => simp [dropPre, List.nil_prefix]
  | cons a as ih =>
    cases s with
    | nil =>
      simp only [dropPre]
      constructor
      · rintro ⟨r, h⟩; cases h
      · intro h
        have := h.length_le
        simp at this
    | cons b bs =>
      simp only [dropPre]
      by_cases hab : a = b
      · subst hab
        rw [if_pos rfl, ih, List.prefix_cons_inj]
      · rw [if_neg hab]
        constructor
        · rintro ⟨r, h⟩; cases h
        · intro h
          rcases h with ⟨t, ht⟩
          simp only [List.cons_append, List.cons.injEq] at ht
          exact absurd ht.1 hab

theorem replaceAll_eq_self_aux {p : List Char} :
    ∀ (n : Nat) (s : List Char), s.length ≤ n → ¬ p <:+: s →
      replaceAll p s = s := by
  intro n
  induction n with
  | zero =>
    intro s hlen _
    have : s = [] := List.eq_nil_of_length_eq_zero (Nat.le_zero.mp hlen)
    subst this
    exact replaceAll_nil p
  | succ k ih =>
    intro s hlen h
    cases s with
    | nil => exact replaceAll_nil p
    | cons c cs =>
      have hnp : ¬ p <+: (c :: cs) := fun hp => h hp.isInfix
      have hdp : dropPre p (c :: cs) = none := by
        cases hval : dropPre p (c :: cs) with
        | none => rfl
        | some r => exact absurd (dropPre_eq_some_iff.mp ⟨r, hval⟩) hnp
      rw [replaceAll_cons_none hdp]
      have hcs : ¬ p <:+: cs := fun hinf =>
        h (hinf.trans (List.suffix_cons c cs).isInfix)
      have : cs.length ≤ k := by
        simp only [List.length_cons] at hlen; omega
      rw [ih cs this hcs]

/-- If `p` does not occur anywhere in `s` as a contiguous substring,
`replaceAll` leaves `s` unchanged. -/
theorem replaceAll_eq_self_of_not_occurs {p s : List Char}
    (h : ¬ p <:+: s) : replaceAll p s = s :=
  replaceAll_eq_self_aux s.length s (le_refl _) h

theorem dropPre_append (p y : List Char) : dropPre p (p ++ y) = some y := by
  induction p with
  | nil => rfl
  | cons a as ih => simp [dropPre, ih]

theorem replaceAll_append_self (p y : List Char) (hp : p ≠ []) :
    replaceAll p (p ++ y) = replaceAll p y := by
  cases p with
  | nil => exact absurd rfl hp
  | cons a as =>
    exact replaceAll_cons_some hp (dropPre_append (a :: as) y)

theorem not_slash_mem_lastSegment (s : List Char) : '/' ∉ lastSegment s := by
  intro h
  rw [lastSegment, List.mem_reverse] at h
  have := List.mem_takeWhile_imp h
  simp at this

theorem lastSegment_eq_self {s : List Char} (h : '/' ∉ s) :
    lastSegment s = s := by
  unfold lastSegment
  rw [List.takeWhile_eq_self_iff.mpr, List.reverse_reverse]
  intro x hx
  rw [List.mem_reverse] at hx
  exact decide_eq_true (fun e => h (e ▸ hx))

/-- C5: column-name normalization is idempotent: for every column name,
normalizing twice equals normalizing once (for the notebooks' URL heads,
which contain a `/`). -/
theorem normalize_column_idem (p x : List Char) (hp : '/' ∈ p) :
    normalize_column p (normalize_column p x) = normalize_column p x := by
  have h1 : '/' ∉ normalize_column p x := not_slash_mem_lastSegment _
  have h2 : ¬ p <:+: normalize_column p x := fun hinf => h1 (hinf.subset hp)
  show lastSegment (replaceAll p (normalize_column p x)) = normalize_column p x
  rw [replaceAll_eq_self_of_not_occurs h2, lastSegment_eq_self h1]

/-- Witness for C5 at the MomCare URL head and a raw column name. -/
theorem normalize_column_idem_witness :
    ('/' ∈ momcarePre) ∧
    normalize_column momcarePre
        (normalize_column momcarePre
          "https://sen.science/core/record-sets/patient/birthDate".toList) =
      normalize_column momcarePre
        "https://sen.science/core/record-sets/patient/birthDate".toList :=
  ⟨by decide, normalize_column_idem _ _ (by decide)⟩

/-- C6 counterexample: the lambda `x.replace(prefix, "").split("/")[-1]`
deletes every occurrence of the URL head, not only a leading one.  On a
name that does not begin with the head but contains it in the middle, the
code does not return the last segment of the unmodified string. -/
theorem normalize_column_midfix_cex :
    (¬ momcarePre <+: "xhttps://sen.science/core/t".toList) ∧
    normalize_column momcarePre "xhttps://sen.science/core/t".toList =
      "xt".toList ∧
    lastSegment "xhttps://sen.science/core/t".toList = "t".toList ∧
    normalize_column momcarePre "xhttps://sen.science/core/t".toList ≠
      lastSegment "xhttps://sen.science/core/t".toList := by
  refine ⟨by decide, by decide, by decide, by decide⟩

/-- C6 (amended): the normalizer deletes every occurrence of the known
URL-head substring and keeps the last `/`-delimited segment: when the head
occurs nowhere in the name the result is the last segment of the unmodified
string, and when the name is the head followed by a remainder in which the
head does not occur again, the result is the last segment of the
remainder. -/
theorem normalize_column_amended (p x y : List Char) :
    (¬ p <:+: x → normalize_column p x = lastSegment x) ∧
    (p ≠ [] → ¬ p <:+: y → normalize_column p (p ++ y) = lastSegment y) := by
  constructor
  · intro h
    unfold normalize_column
    rw [replaceAll_eq_self_of_not_occurs h]
  · intro hp h
    unfold normalize_column
    rw [replaceAll_append_self p y hp, replaceAll_eq_self_of_not_occurs h]

/-- Witness for C6 (amended) on a real MomCare column identifier. -/
theorem normalize_column_amended_witness :
    (¬ momcarePre <:+: "record-sets/patient/birthDate".toList) ∧
    normalize_column momcarePre
        (momcarePre ++ "record-sets/patient/birthDate".toList) =
      "birthDate".toList :=
  ⟨by decide,
    (normalize_column_amended momcarePre []
        "record-sets/patient/birthDate".toList).2
      (by decide) (by decide)⟩

/-! ### Generic `List.find?` lemmas (first match, permutation invariance) -/

theorem find?_eq_of_first {α} (p : α → Bool) :
    ∀ (l : List α) (i : Nat) (hi : i < l.length),
      p (l.get ⟨i, hi⟩) = true →
      (∀ j (hj : j < i), p (l.get ⟨j, Nat.lt_trans hj hi⟩) = false) →
      l.find? p = some (l.get ⟨i, hi⟩) := by
  intro l
  induction l with
  | nil => intro i hi; simp at hi
  | cons a t ih =>
    intro i hi hp hmin
    cases i with
    | zero =>
      simp only [List.get] at hp
      simp [List.find?, hp]
    | succ j =>
      have ha : p a = false := hmin 0 (Nat.succ_pos j)
      simp only [List.find?, ha]
      simp only [List.length_cons, Nat.succ_lt_succ_iff] at hi
      exact ih j hi hp (fun k hk => hmin (k + 1) (Nat.succ_lt_succ hk))

theorem find?_eq_some_of_unique {α} (p : α → Bool) :
    ∀ (l : List α) (a : α), a ∈ l → p a = true →
      (∀ x ∈ l, p x = true → x = a) → l.find? p = some a := by
  intro l
  induction l with
  | nil => intro a ha; simp at ha
  | cons b t ih =>
    intro a ha hpa hu
    by_cases hpb : p b = true
    · have : b = a := hu b (List.mem_cons_self b t) hpb
      subst this
      simp [List.find?, hpb]
    · have hpb' : p b = false := by
        cases h : p b with
        | false => rfl
        | true => exact absurd h hpb
      simp only [List.find?, hpb']
      have hat : a ∈ t := by
        rcases List.mem_cons.mp ha with rfl | h
        · exact absurd hpa hpb
        · exact h
      exact ih a hat hpa (fun x hx hpx => hu x (List.mem_cons_of_mem b hx) hpx)

theorem find?_perm_of_unique {α} (p : α → Bool) {l l' : List α}
    (hperm : l.Perm l')
    (hu : ∀ x ∈ l, ∀ y ∈ l, p x = true → p y = true → x = y) :
    l.find? p = l'.find? p := by
  by_cases hex : ∃ a ∈ l, p a = true
  · obtain ⟨a, ha, hpa⟩ := hex
    rw [find?_eq_some_of_unique p l a ha hpa
        (fun x hx hpx => hu x hx a ha hpx hpa),
      find?_eq_some_of_unique p l' a (hperm.mem_iff.mp ha) hpa
        (fun x hx hpx =>
          hu x (hperm.mem_iff.mpr hx) a ha hpx hpa)]
  · rw [List.find?_eq_none.mpr, List.find?_eq_none.mpr]
    · intro x hx hpx
      exact hex ⟨x, hperm.mem_iff.mpr hx, hpx⟩
    · intro x hx hpx
      exact hex ⟨x, hx, hpx⟩

/-! ### Cohort Assigner

MomCare notebook, cell 15:
```
cohorts = [("Cohort 1", "2020-11-01", "2021-02-28"), ...]
def assign_cohort(date):
    if pd.isnull(date): return "Unassigned"
    for label, start, end in cohorts:
        if pd.to_datetime(start) <= date <= pd.to_datetime(end):
            return label
    return "Unassigned"
```
A parsed calendar date is a year/month/day triple ordered chronologically
(lexicographically); a null or unparseable input (`pd.to_datetime(...,
errors="coerce")` yields `NaT`, for which `pd.isnull` is true) is `none`. -/

structure Date where
  year : Nat
  month : Nat
  day : Nat
deriving DecidableEq

/-- Chronological `≤` on calendar dates (what `pd.Timestamp` comparison
computes at day resolution). -/
def dateLeb (a b : Date) : Bool :=
  a.year < b.year ||
    (a.year == b.year &&
      (a.month < b.month || (a.month == b.month && a.day ≤ b.day)))

/-- Chronological `<` on calendar dates. -/
def dateLtb (a b : Date) : Bool := !dateLeb b a

/-- The nine cohort windows declared in the notebook, in declaration
order. -/
def cohorts : List (String × Date × Date) :=
  [("Cohort 1", ⟨2020, 11, 1⟩, ⟨2021, 2, 28⟩),
   ("Cohort 2", ⟨2021, 3, 1⟩, ⟨2021, 6, 30⟩),
   ("Cohort 3", ⟨2021, 7, 1⟩, ⟨2021, 10, 31⟩),
   ("Cohort 4", ⟨2021, 11, 1⟩, ⟨2022, 2, 28⟩),
   ("Cohort 5", ⟨2022, 3, 1⟩, ⟨2022, 6, 30⟩),
   ("Cohort 6", ⟨2022, 7, 1⟩, ⟨2022, 10, 31⟩),
   ("Cohort 7", ⟨2022, 11, 1⟩, ⟨2023, 2, 28⟩),
   ("Cohort 8", ⟨2023, 3, 1⟩, ⟨2023, 6, 30⟩),
   ("Cohort 9", ⟨2023, 7, 1⟩, ⟨2023, 10, 31⟩)]

/-- `start <= date <= end` for one `(label, start, end)` triple. -/
def inCohortb (c : String × Date × Date) (d : Date) : Bool :=
  dateLeb c.2.1 d && dateLeb d c.2.2

/-- `assign_cohort` generalized over the interval list (the notebook's
`for` loop is a first-match scan in declaration order). -/
def assign_cohort_over (l : List (String × Date × Date))
    (date : Option Date) : String :=
  match date with
  | none => "Unassigned"
  | some d =>
    match l.find? (fun c => inCohortb c d) with
    | some c => c.1
    | none => "Unassigned"

/-- The notebook's `assign_cohort`, over the fixed `cohorts` list. -/
def assign_cohort (date : Option Date) : String :=
  assign_cohort_over cohorts date

theorem assign_cohort_over_some (l : List (String × Date × Date)) (d : Date) :
    assign_cohort_over l (some d) =
      match l.find? (fun c => inCohortb c d) with
      | some c => c.1
      | none => "Unassigned" := rfl

theorem dateLeb_iff {a b : Date} :
    dateLeb a b = true ↔
      (a.year < b.year ∨
        (a.year = b.year ∧
          (a.month < b.month ∨ (a.month = b.month ∧ a.day ≤ b.day)))) := by
  simp [dateLeb]

theorem dateLeb_trans {a b c : Date} (h1 : dateLeb a b = true)
    (h2 : dateLeb b c = true) : dateLeb a c = true := by
  rw [dateLeb_iff] at *
  omega

/-- C1: the cohort assigner returns "Unassigned" for a null/unparseable
date without scanning; otherwise it returns the label of the first
interval (in declaration order) whose inclusive range contains the date,
and "Unassigned" when no interval contains it; 2021-01-15 maps to
"Cohort 1" and 2019-01-01 to "Unassigned". -/
theorem assign_cohort_first_match :
    assign_cohort none = "Unassigned" ∧
    (∀ d : Date, (∀ c ∈ cohorts, inCohortb c d = false) →
      assign_cohort (some d) = "Unassigned") ∧
    (∀ (d : Date) (i : Nat) (hi : i < cohorts.length),
      inCohortb (cohorts.get ⟨i, hi⟩) d = true →
      (∀ j (hj : j < i), inCohortb (cohorts.get ⟨j, Nat.lt_trans hj hi⟩) d = false) →
      assign_cohort (some d) = (cohorts.get ⟨i, hi⟩).1) ∧
    assign_cohort (some ⟨2021, 1, 15⟩) = "Cohort 1" ∧
    assign_cohort (some ⟨2019, 1, 1⟩) = "Unassigned" := by
  refine ⟨rfl, ?_, ?_, by decide, by decide⟩
  · intro d h
    show assign_cohort_over cohorts (some d) = "Unassigned"
    rw [assign_cohort_over_some, List.find?_eq_none.mpr]
    intro x hx
    simp [h x hx]
  · intro d i hi hp hmin
    show assign_cohort_over cohorts (some d) = (cohorts.get ⟨i, hi⟩).1
    rw [assign_cohort_over_some,
      find?_eq_of_first (fun c => inCohortb c d) cohorts i hi hp hmin]

/-- Witness for C1: the first interval contains 2021-01-15, and the
assigner returns its label. -/
theorem assign_cohort_first_match_witness :
    inCohortb (cohorts.get ⟨0, by decide⟩) ⟨2021, 1, 15⟩ = true ∧
    assign_cohort (some ⟨2021, 1, 15⟩) = (cohorts.get ⟨0, by decide⟩).1 :=
  ⟨by decide,
    assign_cohort_first_match.2.2.1 ⟨2021, 1, 15⟩ 0 (by decide) (by decide)
      (fun j hj => absurd hj (Nat.not_lt_zero j))⟩

/-- Two interval triples whose inclusive date ranges do not intersect. -/
def intervalsDisjointb (c c' : String × Date × Date) : Bool :=
  dateLtb c.2.2 c'.2.1 || dateLtb c'.2.2 c.2.1

theorem not_inCohortb_both {c c' : String × Date × Date} {d : Date}
    (hdisj : intervalsDisjointb c c' = true)
    (h1 : inCohortb c d = true) (h2 : inCohortb c' d = true) : False := by
  unfold inCohortb at h1 h2
  rw [Bool.and_eq_true] at h1 h2
  unfold intervalsDisjointb dateLtb at hdisj
  rw [Bool.or_eq_true, Bool.not_eq_true', Bool.not_eq_true'] at hdisj
  rcases hdisj with h | h
  · rw [dateLeb_trans h2.1 h1.2] at h
    cases h
  · rw [dateLeb_trans h1.1 h2.2] at h
    cases h

/-- C9: the nine declared cohort intervals are pairwise disjoint, hence
every date lies in at most one interval, and the assigner's result is
invariant under any reordering of the interval list. -/
theorem cohorts_disjoint_scan_order :
    (∀ c ∈ cohorts, ∀ c' ∈ cohorts, c ≠ c' →
      intervalsDisjointb c c' = true) ∧
    (∀ (d : Date), ∀ c ∈ cohorts, ∀ c' ∈ cohorts,
      inCohortb c d = true → inCohortb c' d = true → c = c') ∧
    (∀ l : List (String × Date × Date), l.Perm cohorts →
      ∀ date : Option Date, assign_cohort_over l date = assign_cohort date) := by
  have hdisj : ∀ c ∈ cohorts, ∀ c' ∈ cohorts, c ≠ c' →
      intervalsDisjointb c c' = true := by decide
  have huniq : ∀ (d : Date), ∀ c ∈ cohorts, ∀ c' ∈ cohorts,
      inCohortb c d = true → inCohortb c' d = true → c = c' := by
    intro d c hc c' hc' h1 h2
    by_contra hne
    exact not_inCohortb_both (hdisj c hc c' hc' hne) h1 h2
  refine ⟨hdisj, huniq, ?_⟩
  intro l hperm date
  cases date with
  | none => rfl
  | some d =>
    show assign_cohort_over l (some d) = assign_cohort_over cohorts (some d)
    rw [assign_cohort_over_some, assign_cohort_over_some,
      find?_perm_of_unique (fun c => inCohortb c d) hperm]
    intro x hx y hy hpx hpy
    exact huniq d x (hperm.mem_iff.mp hx) y (hperm.mem_iff.mp hy) hpx hpy

/-- Witness for C9: scanning the reversed interval list assigns
2021-01-15 identically. -/
theorem cohorts_disjoint_scan_order_witness :
    cohorts.reverse.Perm cohorts ∧
    assign_cohort_over cohorts.reverse (some ⟨2021, 1, 15⟩) =
      assign_cohort (some ⟨2021, 1, 15⟩) :=
  ⟨List.reverse_perm cohorts,
    cohorts_disjoint_scan_order.2.2 cohorts.reverse
      (List.reverse_perm cohorts) (some ⟨2021, 1, 15⟩)⟩

/-! ### Insertion sort

`sort_values` / `value_counts` ordering is modeled by an insertion sort:
`r x y = true` means `x` may be placed before `y`.  The notebooks call
these pandas sorts with the default `kind='quicksort'`, whose order among
ties is implementation-defined; this embedding necessarily fixes one
deterministic tie order (that of insertion sort), and no theorem below
relies on the tie order — every statement proved about a sorted result is
invariant under reordering ties. -/

def insertBy (r : α → α → Bool) (x : α) : List α → List α
  | [] => [x]
  | y :: ys => if r x y then x :: y :: ys else y :: insertBy r x ys

def sortBy (r : α → α → Bool) : List α → List α
  | [] => []
  | x :: xs => insertBy r x (sortBy r xs)

theorem insertBy_perm (r : α → α → Bool) (x : α) :
    ∀ l : List α, (insertBy r x l).Perm (x :: l) := by
  intro l
  induction l with
  | nil => exact List.Perm.refl _
  | cons y ys ih =>
    simp only [insertBy]
    by_cases h : r x y
    · rw [if_pos h]
    · rw [if_neg h]
      exact (ih.cons y).trans (List.Perm.swap x y ys)

theorem sortBy_perm (r : α → α → Bool) :
    ∀ l : List α, (sortBy r l).Perm l := by
  intro l
  induction l with
  | nil => exact List.Perm.refl _
  | cons x xs ih =>
    exact (insertBy_perm r x (sortBy r xs)).trans (ih.cons x)

theorem mem_sortBy (r : α → α → Bool) (l : List α) (a : α) :
    a ∈ sortBy r l ↔ a ∈ l :=
  (sortBy_perm r l).mem_iff

theorem pairwise_insertBy {r : α → α → Bool}
    (htot : ∀ x y, r x y = false → r y x = true)
    (htrans : ∀ x y z, r x y = true → r y z = true → r x z = true)
    (x : α) :
    ∀ l : List α, l.Pairwise (fun a b => r a b = true) →
      (insertBy r x l).Pairwise (fun a b => r a b = true) := by
  intro l
  induction l with
  | nil => intro _; simp [insertBy]
  | cons y ys ih =>
    intro hp
    rcases List.pairwise_cons.mp hp with ⟨hy, hys⟩
    simp only [insertBy]
    by_cases h : r x y
    · rw [if_pos h]
      refine List.pairwise_cons.mpr ⟨?_, hp⟩
      intro z hz
      rcases List.mem_cons.mp hz with rfl | hz'
      · exact h
      · exact htrans x y z h (hy z hz')
    · rw [if_neg h]
      refine List.pairwise_cons.mpr ⟨?_, ih hys⟩
      intro z hz
      have hz2 : z = x ∨ z ∈ ys :=
        List.mem_cons.mp ((insertBy_perm r x ys).mem_iff.mp hz)
      rcases hz2 with heq | hz'
      · rw [heq]
        exact htot x y (Bool.eq_false_iff.mpr h)
      · exact hy z hz'

theorem pairwise_sortBy {r : α → α → Bool}
    (htot : ∀ x y, r x y = false → r y x = true)
    (htrans : ∀ x y z, r x y = true → r y z = true → r x z = true)
    (l : List α) :
    (sortBy r l).Pairwise (fun a b => r a b = true) := by
  induction l with
  | nil => simp [sortBy]
  | cons x xs ih => exact pairwise_insertBy htot htrans x (sortBy r xs) ih

/-! ### Aggregator

Marine notebook, summary-statistics cell:
```
summary_stats = df.groupby('taxaname').agg({
    'parameter_value': ['mean', 'std', 'min', 'max', 'count']
}).reset_index()
summary_stats = summary_stats.sort_values(by='Count', ascending=False)
```
A row carries the grouping field `taxaname` and the numeric field
`parameter_value`, either possibly missing (pandas NaN).  `groupby` drops
rows with a missing key and orders the group keys (default `sort=True`);
an aggregate row is modeled as the key together with the group's column of
numeric values, from which each statistic is derived — `count` is the
number of non-missing values.  `sort_values` uses the default
`kind='quicksort'`, whose tie order is implementation-defined; the
embedding's insertion sort fixes one tie order and no theorem depends on
it. -/

structure RowB where
  taxaname : Option String
  parameter_value : Option Int
deriving DecidableEq

/-- Kernel-computable lexicographic `<` on the character lists of strings
(Python/pandas string ordering used by `groupby`'s key sort). -/
def listCharLtb : List Char → List Char → Bool
  | [], [] => false
  | [], _ :: _ => true
  | _ :: _, [] => false
  | a :: as, b :: bs =>
    if a.toNat < b.toNat then true
    else if b.toNat < a.toNat then false
    else listCharLtb as bs

def strLeb (a b : String) : Bool := !(listCharLtb b.data a.data)

/-- The sorted distinct (non-missing) group keys, as `groupby` yields
them. -/
def groupKeys (rows : List RowB) : List String :=
  sortBy strLeb (firstSeen (rows.filterMap (fun r => r.taxaname)))

/-- One aggregate row per key: the key and the group's column of numeric
values (statistics are derived from this column). -/
def groupAgg (rows : List RowB) : List (String × List (Option Int)) :=
  (groupKeys rows).map (fun k =>
    (k, (rows.filter (fun r => r.taxaname == some k)).map
      (fun r => r.parameter_value)))

/-- pandas `count` of a group: the number of non-missing numeric values. -/
def aggCount (g : String × List (Option Int)) : Nat :=
  (g.2.filter Option.isSome).length

/-- `sort_values(by='Count', ascending=False)` applied to the aggregate. -/
def summary_stats (rows : List RowB) : List (String × List (Option Int)) :=
  sortBy (fun a b => decide (aggCount b ≤ aggCount a)) (groupAgg rows)

/-- C4 counterexample input: two rows share key "A" but one of them has a
missing numeric value; a third row has a value but no key. -/
def exC4 : List RowB :=
  [⟨some "A", some 1⟩, ⟨some "A", none⟩, ⟨none, some 5⟩]

/-- C4 counterexample: with a missing numeric value in group "A", the
aggregate count for "A" is 1 although 2 input rows share that group value,
and the counts sum to 1 although 2 input rows have a non-missing numeric
field. -/
theorem agg_count_missing_cex :
    (summary_stats exC4).map (fun g => (g.1, aggCount g)) = [("A", 1)] ∧
    (exC4.filter (fun r => r.taxaname == some "A")).length = 2 ∧
    ((summary_stats exC4).map aggCount).sum = 1 ∧
    (exC4.filter (fun r => r.parameter_value.isSome)).length = 2 :=
  ⟨by decide, by decide, by decide, by decide⟩

theorem sum_map_add {β} (f g : β → Nat) :
    ∀ l : List β,
      (l.map (fun k => f k + g k)).sum = (l.map f).sum + (l.map g).sum := by
  intro l
  induction l with
  | nil => rfl
  | cons a t ih =>
    simp only [List.map_cons, List.sum_cons, ih]
    omega

theorem sum_indicator_zero {β} [DecidableEq β] (k0 : β) :
    ∀ keys : List β, k0 ∉ keys →
      (keys.map (fun k => if k0 = k then (1 : Nat) else 0)).sum = 0 := by
  intro keys
  induction keys with
  | nil => intro _; rfl
  | cons k ks ih =>
    intro h
    have h1 : k0 ≠ k := fun e => h (e ▸ List.mem_cons_self k ks)
    have h2 : k0 ∉ ks := fun e => h (List.mem_cons_of_mem k e)
    simp only [List.map_cons, List.sum_cons, if_neg h1, ih h2]

theorem sum_indicator_one {β} [DecidableEq β] (k0 : β) :
    ∀ keys : List β, keys.Nodup → k0 ∈ keys →
      (keys.map (fun k => if k0 = k then (1 : Nat) else 0)).sum = 1 := by
  intro keys
  induction keys with
  | nil => intro _ h; simp at h
  | cons k ks ih =>
    intro hnd hmem
    rcases List.nodup_cons.mp hnd with ⟨hk, hks⟩
    simp only [List.map_cons, List.sum_cons]
    by_cases he : k0 = k
    · subst he
      rw [if_pos rfl, sum_indicator_zero k0 ks hk]
    · rw [if_neg he]
      have : k0 ∈ ks := by
        rcases List.mem_cons.mp hmem with h | h
        · exact absurd h he
        · exact h
      rw [ih hks this]

/-- Each input row contributes to exactly one group's count: summing a
per-key row count over distinct covering keys counts every keyed row
once. -/
theorem sum_countP_partition (q : RowB → Bool) :
    ∀ (rows : List RowB) (keys : List String), keys.Nodup →
      (∀ r ∈ rows, ∀ k : String, r.taxaname = some k → k ∈ keys) →
      (keys.map (fun k =>
        rows.countP (fun r => r.taxaname == some k && q r))).sum =
        rows.countP (fun r => r.taxaname.isSome && q r) := by
  intro rows
  induction rows with
  | nil =>
    intro keys _ _
    simp [List.countP_nil]
  | cons r rest ih =>
    intro keys hnd hcov
    have hcov' : ∀ r' ∈ rest, ∀ k, r'.taxaname = some k → k ∈ keys :=
      fun r' h => hcov r' (List.mem_cons_of_mem r h)
    simp only [List.countP_cons]
    rw [sum_map_add
      (fun k => rest.countP (fun r' => r'.taxaname == some k && q r'))
      (fun k => if (r.taxaname == some k && q r) = true then 1 else 0),
      ih keys hnd hcov']
    congr 1
    cases hq : q r with
    | false => simp [hq]
    | true =>
      cases ht : r.taxaname with
      | none => simp [ht]
      | some k0 =>
        have hmem : k0 ∈ keys := hcov r (List.mem_cons_self r rest) k0 ht
        simp only [ht, hq, Bool.and_true, Option.isSome_some, if_pos rfl,
          beq_iff_eq, Option.some.injEq]
        exact sum_indicator_one k0 keys hnd hmem

/-- The count of one aggregate row, as a row-level count over the input. -/
theorem aggCount_entry (rows : List RowB) (k : String) :
    aggCount (k, (rows.filter (fun r => r.taxaname == some k)).map
        (fun r => r.parameter_value)) =
      rows.countP (fun r =>
        r.taxaname == some k && r.parameter_value.isSome) := by
  unfold aggCount
  simp only [List.filter_map, List.length_map, List.filter_filter,
    Function.comp]
  rw [← List.countP_eq_length_filter]
  apply List.countP_congr
  intro r _
  rw [Bool.and_comm]

/-- C4 (amended): each aggregate row's count equals the number of input
rows sharing that group value whose numeric field is non-missing, and the
counts across all groups sum to the number of input rows with both a
non-missing group key and a non-missing numeric field; rows missing the
numeric field are excluded from the statistics. -/
theorem agg_count_nonmissing (rows : List RowB) :
    (∀ g ∈ summary_stats rows,
      aggCount g = (rows.filter (fun r =>
        r.taxaname == some g.1 && r.parameter_value.isSome)).length) ∧
    ((summary_stats rows).map aggCount).sum =
      (rows.filter (fun r =>
        r.taxaname.isSome && r.parameter_value.isSome)).length := by
  constructor
  · intro g hg
    have hg' : g ∈ groupAgg rows := (mem_sortBy _ _ _).mp hg
    obtain ⟨k, hk, hEq⟩ := List.mem_map.mp hg'
    subst hEq
    show aggCount (k, (rows.filter (fun r => r.taxaname == some k)).map
        (fun r => r.parameter_value)) =
      (rows.filter (fun r =>
        r.taxaname == some k && r.parameter_value.isSome)).length
    rw [aggCount_entry rows k, List.countP_eq_length_filter]
  · have hperm : ((summary_stats rows).map aggCount).sum =
        ((groupAgg rows).map aggCount).sum :=
      ((sortBy_perm _ (groupAgg rows)).map aggCount).sum_eq
    rw [hperm]
    unfold groupAgg
    rw [List.map_map]
    have hnd : (groupKeys rows).Nodup :=
      ((sortBy_perm strLeb _).nodup_iff).mpr
        (nodup_firstSeen (rows.filterMap (fun r => r.taxaname)))
    have hcov : ∀ r ∈ rows, ∀ k : String, r.taxaname = some k →
        k ∈ groupKeys rows := by
      intro r hr k hk
      unfold groupKeys
      rw [mem_sortBy, mem_firstSeen]
      exact List.mem_filterMap.mpr ⟨r, hr, hk⟩
    have hpart := sum_countP_partition
      (fun r => r.parameter_value.isSome) rows (groupKeys rows) hnd hcov
    simp only [] at hpart
    rw [← List.countP_eq_length_filter, ← hpart]
    congr 1
    congr 1
    funext k
    simp only [Function.comp]
    exact aggCount_entry rows k

/-- Witness input and aggregate row for the amended C4 theorem. -/
def exC4w : List RowB := [⟨some "A", some 1⟩]

/-- Witness for C4 (amended) on a one-row table. -/
theorem agg_count_nonmissing_witness :
    (("A", [some (1 : Int)]) ∈ summary_stats exC4w) ∧
    aggCount ("A", [some (1 : Int)]) =
      (exC4w.filter (fun r =>
        r.taxaname == some ("A", [some (1 : Int)]).1 &&
          r.parameter_value.isSome)).length :=
  ⟨by decide, (agg_count_nonmissing exC4w).1 _ (by decide)⟩

/-! ### Network Builder

MomCare notebook, cell 19.  The rows are the `(patient_id, org_name)`
columns of `cohort_map`:
```
clinic_patient_counts = cohort_map['org_name'].value_counts().reset_index()
top_clinics = clinic_patient_counts.head(10)['org_name'].tolist()
cohort_map_top_clinics = cohort_map[cohort_map['org_name'].isin(top_clinics)].copy()
G = nx.Graph()
G.add_nodes_from(top_clinics, node_type='clinic')
unique_patients = cohort_map_top_clinics['patient_id'].unique()
G.add_nodes_from(unique_patients, node_type='patient')
for index, row in cohort_map_top_clinics.iterrows():
    G.add_edge(row['patient_id'], row['org_name'])
```
`value_counts` counts occurrences (rows) of each value and sorts the
distinct values by descending count (its tie order is
implementation-defined; the embedding fixes first-seen order and no
theorem depends on it).  `nx.Graph` is a simple undirected graph: re-adding an
existing node or edge is a no-op.  Every edge endpoint below is already a
node when the edge is added (the rows were restricted to the selected
clinics and their patients), so `add_edge` never creates nodes. -/

/-- pandas `Series.value_counts`: occurrence count per distinct value,
sorted by descending count. -/
def value_counts (l : List String) : List (String × Nat) :=
  sortBy (fun a b => decide (b.2 ≤ a.2))
    ((firstSeen l).map (fun k => (k, l.count k)))

def clinic_patient_counts (rows : List (String × String)) :
    List (String × Nat) :=
  value_counts (rows.map (fun r => r.2))

/-- `clinic_patient_counts.head(K)['org_name'].tolist()` (K = 10 in the
notebook). -/
def top_clinics (rows : List (String × String)) (K : Nat) : List String :=
  ((clinic_patient_counts rows).take K).map (fun x => x.1)

/-- The rows whose clinic is among the selected top clinics. -/
def cohort_map_top_clinics (rows : List (String × String)) (K : Nat) :
    List (String × String) :=
  rows.filter (fun r => (top_clinics rows K).contains r.2)

/-- `cohort_map_top_clinics['patient_id'].unique()` (first-seen order). -/
def unique_patients (rows : List (String × String)) (K : Nat) :
    List String :=
  firstSeen ((cohort_map_top_clinics rows K).map (fun r => r.1))

/-- A simple graph as networkx builds it here: nodes annotated with their
`node_type`, and an undirected edge list. -/
structure Graph where
  nodes : List (String × String)
  edges : List (String × String)
deriving DecidableEq

/-- `nx.Graph.add_edge` on an edge whose endpoints are already nodes:
a duplicate of an existing edge (in either orientation) is a no-op. -/
def addEdge (es : List (String × String)) (e : String × String) :
    List (String × String) :=
  if es.contains e || es.contains (e.2, e.1) then es else es ++ [e]

/-- The graph `G` built in the notebook for a given row table and K. -/
def buildGraph (rows : List (String × String)) (K : Nat) : Graph :=
  { nodes := (top_clinics rows K).map (fun c => (c, "clinic")) ++
      (unique_patients rows K).map (fun p => (p, "patient")),
    edges := (cohort_map_top_clinics rows K).foldl addEdge [] }

/-- The patient count displayed for a clinic node (looked up from
`clinic_patient_counts`, used to size the marker). -/
def clinic_count_of (rows : List (String × String)) (c : String) :
    Option Nat :=
  ((clinic_patient_counts rows).find? (fun x => x.1 == c)).map
    (fun x => x.2)

theorem foldl_addEdge_spec :
    ∀ (l es : List (String × String)),
      (∀ x, (x ∈ es ∨ x ∈ l) → ∀ y, (y ∈ es ∨ y ∈ l) → x.1 ≠ y.2) →
      es.Nodup →
      ((l.foldl addEdge es).Nodup ∧
        ∀ e, e ∈ l.foldl addEdge es ↔ (e ∈ es ∨ e ∈ l)) := by
  intro l
  induction l with
  | nil =>
    intro es _ hnd
    exact ⟨hnd, fun e => by simp⟩
  | cons a t ih =>
    intro es hdisj hnd
    simp only [List.foldl_cons]
    by_cases hc : (es.contains a || es.contains (a.2, a.1)) = true
    · have hae : addEdge es a = es := by
        unfold addEdge
        rw [if_pos hc]
      have hmem : a ∈ es := by
        rw [Bool.or_eq_true] at hc
        rcases hc with h1 | h2
        · exact List.elem_iff.mp h1
        · exfalso
          exact hdisj (a.2, a.1) (Or.inl (List.elem_iff.mp h2)) a
            (Or.inr (List.mem_cons_self a t)) rfl
      rw [hae]
      have hdisj' : ∀ x, (x ∈ es ∨ x ∈ t) → ∀ y, (y ∈ es ∨ y ∈ t) →
          x.1 ≠ y.2 := fun x hx y hy =>
        hdisj x (hx.imp id (List.mem_cons_of_mem a))
          y (hy.imp id (List.mem_cons_of_mem a))
      obtain ⟨h1, h2⟩ := ih es hdisj' hnd
      refine ⟨h1, fun e => ?_⟩
      rw [h2 e]
      constructor
      · rintro (h | h)
        · exact Or.inl h
        · exact Or.inr (List.mem_cons_of_mem a h)
      · rintro (h | h)
        · exact Or.inl h
        · rcases List.mem_cons.mp h with heq | ht
          · exact Or.inl (heq ▸ hmem)
          · exact Or.inr ht
    · have hae : addEdge es a = es ++ [a] := by
        unfold addEdge
        rw [if_neg hc]
      have hnotmem : a ∉ es := by
        intro h
        have h' : es.contains a = true := List.elem_iff.mpr h
        exact hc (by rw [h', Bool.true_or])
      have hnd' : (es ++ [a]).Nodup :=
        ((List.perm_append_singleton a es).nodup_iff).mpr
          (List.nodup_cons.mpr ⟨hnotmem, hnd⟩)
      have hmm : ∀ z : String × String,
          (z ∈ es ++ [a] ∨ z ∈ t) → (z ∈ es ∨ z ∈ a :: t) := by
        intro z hz
        rcases hz with hz | hz
        · rcases List.mem_append.mp hz with h | h
          · exact Or.inl h
          · rw [List.mem_singleton] at h
            exact Or.inr (h ▸ List.mem_cons_self a t)
        · exact Or.inr (List.mem_cons_of_mem a hz)
      have hdisj' : ∀ x, (x ∈ es ++ [a] ∨ x ∈ t) →
          ∀ y, (y ∈ es ++ [a] ∨ y ∈ t) → x.1 ≠ y.2 :=
        fun x hx y hy => hdisj x (hmm x hx) y (hmm y hy)
      rw [hae]
      obtain ⟨h1, h2⟩ := ih (es ++ [a]) hdisj' hnd'
      refine ⟨h1, fun e => ?_⟩
      rw [h2 e, List.mem_append, List.mem_singleton, List.mem_cons]
      tauto

theorem descTot {γ} (f : γ → Nat) :
    ∀ x y : γ, decide (f y ≤ f x) = false → decide (f x ≤ f y) = true := by
  intro x y h
  simp only [decide_eq_false_iff_not, not_le] at h
  exact decide_eq_true (le_of_lt h)

theorem descTrans {γ} (f : γ → Nat) :
    ∀ x y z : γ, decide (f y ≤ f x) = true → decide (f z ≤ f y) = true →
      decide (f z ≤ f x) = true := by
  intro x y z h1 h2
  rw [decide_eq_true_eq] at *
  exact le_trans h2 h1

theorem value_counts_mem (l : List String) :
    ∀ e ∈ value_counts l, e.2 = l.count e.1 ∧ e.1 ∈ l := by
  intro e he
  have he' : e ∈ (firstSeen l).map (fun k => (k, l.count k)) :=
    (mem_sortBy _ _ _).mp he
  obtain ⟨k, hk, hEq⟩ := List.mem_map.mp he'
  subst hEq
  exact ⟨rfl, (mem_firstSeen l k).mp hk⟩

theorem mem_value_counts (l : List String) (c : String) (hc : c ∈ l) :
    (c, l.count c) ∈ value_counts l := by
  apply (mem_sortBy _ _ _).mpr
  exact List.mem_map.mpr ⟨c, (mem_firstSeen l c).mpr hc, rfl⟩

theorem pairwise_value_counts (l : List String) :
    (value_counts l).Pairwise (fun a b => b.2 ≤ a.2) :=
  (pairwise_sortBy (descTot Prod.snd) (descTrans Prod.snd) _).imp
    (fun h => of_decide_eq_true h)

theorem top_clinics_subset (rows : List (String × String)) (K : Nat) :
    ∀ c ∈ top_clinics rows K, c ∈ rows.map (fun r => r.2) := by
  intro c hcm
  unfold top_clinics clinic_patient_counts at hcm
  obtain ⟨e, he, heq⟩ := List.mem_map.mp hcm
  have h2 := (value_counts_mem _ e (List.mem_of_mem_take he)).2
  rw [heq] at h2
  exact h2

/-- C2 counterexample input: p1 has three episode rows at clinicA, while
clinicB serves two distinct patients. -/
def exC2 : List (String × String) :=
  [("p1", "clinicA"), ("p1", "clinicA"), ("p1", "clinicA"),
   ("p2", "clinicB"), ("p3", "clinicB")]

/-- Number of distinct patients with a row at clinic `c` (what the claim
says the selection counts). -/
def distinct_patient_count (rows : List (String × String)) (c : String) :
    Nat :=
  (firstSeen ((rows.filter (fun r => r.2 == c)).map (fun r => r.1))).length

/-- C2 counterexample: with K=1, the code selects clinicA (three rows of
one patient) although clinicB has strictly more distinct patients (two),
so the selection is not by distinct-patient count and a patient with
several rows at one clinic contributes more than 1. -/
theorem top_clinics_distinct_cex :
    top_clinics exC2 1 = ["clinicA"] ∧
    distinct_patient_count exC2 "clinicA" = 1 ∧
    distinct_patient_count exC2 "clinicB" = 2 ∧
    "clinicB" ∉ top_clinics exC2 1 :=
  ⟨by decide, by decide, by decide, by decide⟩

/-- C2 (amended): the network builder selects its top-K clinics by
counting rows (episode entries) per clinic name — a patient contributes
once per row, not once per clinic — and every selected clinic's row count
is at least that of every non-selected clinic appearing in the data. -/
theorem top_clinics_rowcount_topK :
    ∀ (rows : List (String × String)) (K : Nat),
      ∀ c ∈ top_clinics rows K,
        ∀ c' ∈ rows.map (fun r => r.2), c' ∉ top_clinics rows K →
          (rows.map (fun r => r.2)).count c' ≤
            (rows.map (fun r => r.2)).count c := by
  intro rows K c hc c' hc' hnot
  unfold top_clinics clinic_patient_counts at hc hnot
  obtain ⟨e, he, heq⟩ := List.mem_map.mp hc
  have heVC : e ∈ value_counts (rows.map (fun r => r.2)) :=
    List.mem_of_mem_take he
  have hecount := (value_counts_mem _ e heVC).1
  have he' : (c', (rows.map (fun r => r.2)).count c') ∈
      value_counts (rows.map (fun r => r.2)) :=
    mem_value_counts _ c' hc'
  have hnotTake : (c', (rows.map (fun r => r.2)).count c') ∉
      (value_counts (rows.map (fun r => r.2))).take K := by
    intro h
    exact hnot (List.mem_map.mpr ⟨_, h, rfl⟩)
  have hdrop : (c', (rows.map (fun r => r.2)).count c') ∈
      (value_counts (rows.map (fun r => r.2))).drop K := by
    have hsplit :=
      (List.take_append_drop K (value_counts (rows.map (fun r => r.2)))).symm
    rw [hsplit] at he'
    rcases List.mem_append.mp he' with h | h
    · exact absurd h hnotTake
    · exact h
  have hpw := pairwise_value_counts (rows.map (fun r => r.2))
  rw [← List.take_append_drop K (value_counts (rows.map (fun r => r.2))),
    List.pairwise_append] at hpw
  have hle := hpw.2.2 e he _ hdrop
  rw [hecount, heq] at hle
  exact hle

/-- Witness for C2 (amended) on the counterexample table with K=1. -/
theorem top_clinics_rowcount_topK_witness :
    ("clinicA" ∈ top_clinics exC2 1) ∧
    ("clinicB" ∈ exC2.map (fun r => r.2)) ∧
    ("clinicB" ∉ top_clinics exC2 1) ∧
    (exC2.map (fun r => r.2)).count "clinicB" ≤
      (exC2.map (fun r => r.2)).count "clinicA" :=
  ⟨by decide, by decide, by decide,
    top_clinics_rowcount_topK exC2 1 "clinicA" (by decide) "clinicB"
      (by decide) (by decide)⟩

/-- The spec's Network Builder example: p1, p2 at clinicA; p3 at
clinicB. -/
def exC7 : List (String × String) :=
  [("p1", "clinicA"), ("p2", "clinicA"), ("p3", "clinicB")]

/-- The same table with the (p1, clinicA) association fed twice. -/
def exC7d : List (String × String) := exC7 ++ [("p1", "clinicA")]

/-- C7: under disjoint patient and clinic names, the graph's edge list has
no duplicates (in either orientation) and holds exactly the distinct
(patient, clinic) pairs of the rows restricted to the selected clinics;
on the spec example with K=2 it has 2 clinic nodes, 3 patient nodes and 3
edges with clinicA annotated 2 and clinicB annotated 1, and a duplicated
pair still yields 3 edges. -/
theorem graph_edges_distinct_pairs :
    (∀ (rows : List (String × String)) (K : Nat),
      (∀ r ∈ rows, ∀ r' ∈ rows, r.1 ≠ r'.2) →
      ((buildGraph rows K).edges.Nodup ∧
        (∀ e, e ∈ (buildGraph rows K).edges ↔
          e ∈ cohort_map_top_clinics rows K) ∧
        (∀ e ∈ (buildGraph rows K).edges,
          (e.2, e.1) ∉ (buildGraph rows K).edges))) ∧
    ((buildGraph exC7 2).nodes.filter (fun n => n.2 == "clinic")).length = 2 ∧
    ((buildGraph exC7 2).nodes.filter (fun n => n.2 == "patient")).length = 3 ∧
    (buildGraph exC7 2).edges.length = 3 ∧
    clinic_count_of exC7 "clinicA" = some 2 ∧
    clinic_count_of exC7 "clinicB" = some 1 ∧
    (buildGraph exC7d 2).edges.length = 3 := by
  refine ⟨?_, by decide, by decide, by decide, by decide, by decide,
    by decide⟩
  intro rows K hdisj
  have hsub : ∀ x ∈ cohort_map_top_clinics rows K, x ∈ rows :=
    fun x hx => (List.mem_filter.mp hx).1
  have hd : ∀ x : String × String,
      (x ∈ ([] : List (String × String)) ∨
        x ∈ cohort_map_top_clinics rows K) →
      ∀ y : String × String,
        (y ∈ ([] : List (String × String)) ∨
          y ∈ cohort_map_top_clinics rows K) → x.1 ≠ y.2 := by
    intro x hx y hy
    rcases hx with hx | hx
    · simp at hx
    rcases hy with hy | hy
    · simp at hy
    exact hdisj x (hsub x hx) y (hsub y hy)
  obtain ⟨h1, h2⟩ := foldl_addEdge_spec (cohort_map_top_clinics rows K) []
    hd List.nodup_nil
  have hmem : ∀ e, e ∈ (buildGraph rows K).edges ↔
      e ∈ cohort_map_top_clinics rows K := by
    intro e
    rw [show (buildGraph rows K).edges =
      (cohort_map_top_clinics rows K).foldl addEdge [] from rfl, h2 e]
    simp
  refine ⟨h1, hmem, ?_⟩
  intro e he hrev
  exact hdisj (e.2, e.1) (hsub _ ((hmem _).mp hrev)) e
    (hsub _ ((hmem _).mp he)) rfl

/-- Witness for C7's universal part: on the spec example the edge
(p1, clinicA) is present. -/
theorem graph_edges_distinct_pairs_witness :
    (∀ r ∈ exC7, ∀ r' ∈ exC7, r.1 ≠ r'.2) ∧
    ("p1", "clinicA") ∈ (buildGraph exC7 2).edges :=
  ⟨by decide,
    ((graph_edges_distinct_pairs.1 exC7 2 (by decide)).2.1 _).mpr
      (by decide)⟩

/-- C10: under disjoint patient identifiers and clinic names, every node
of the built graph is typed "clinic" or "patient", no name carries both
types, and every edge joins a patient-typed node to a clinic-typed
node. -/
theorem graph_bipartite :
    ∀ (rows : List (String × String)) (K : Nat),
      (∀ r ∈ rows, ∀ r' ∈ rows, r.1 ≠ r'.2) →
      ((∀ n ∈ (buildGraph rows K).nodes,
          n.2 = "clinic" ∨ n.2 = "patient") ∧
        (∀ s : String, ¬((s, "patient") ∈ (buildGraph rows K).nodes ∧
          (s, "clinic") ∈ (buildGraph rows K).nodes)) ∧
        (∀ e ∈ (buildGraph rows K).edges,
          (e.1, "patient") ∈ (buildGraph rows K).nodes ∧
          (e.2, "clinic") ∈ (buildGraph rows K).nodes)) := by
  intro rows K hdisj
  have hnodes : (buildGraph rows K).nodes =
      (top_clinics rows K).map (fun c => (c, "clinic")) ++
        (unique_patients rows K).map (fun p => (p, "patient")) := rfl
  have hclin : ∀ c ∈ top_clinics rows K,
      (c, "clinic") ∈ (buildGraph rows K).nodes := by
    intro c hcm
    rw [hnodes]
    exact List.mem_append.mpr (Or.inl (List.mem_map.mpr ⟨c, hcm, rfl⟩))
  have hpat : ∀ p ∈ unique_patients rows K,
      (p, "patient") ∈ (buildGraph rows K).nodes := by
    intro p hpm
    rw [hnodes]
    exact List.mem_append.mpr (Or.inr (List.mem_map.mpr ⟨p, hpm, rfl⟩))
  refine ⟨?_, ?_, ?_⟩
  · intro n hn
    rw [hnodes] at hn
    rcases List.mem_append.mp hn with h | h
    · obtain ⟨c, _, hEq⟩ := List.mem_map.mp h
      exact Or.inl (by rw [← hEq])
    · obtain ⟨p, _, hEq⟩ := List.mem_map.mp h
      exact Or.inr (by rw [← hEq])
  · intro s hs
    obtain ⟨hp, hc⟩ := hs
    rw [hnodes] at hp hc
    have hsp : s ∈ unique_patients rows K := by
      rcases List.mem_append.mp hp with h | h
      · obtain ⟨c, _, hEq⟩ := List.mem_map.mp h
        have hbad : ("clinic" : String) = "patient" := congrArg Prod.snd hEq
        exact absurd hbad (by decide)
      · obtain ⟨p, hpm, hEq⟩ := List.mem_map.mp h
        have hps : p = s := congrArg Prod.fst hEq
        exact hps ▸ hpm
    have hsc : s ∈ top_clinics rows K := by
      rcases List.mem_append.mp hc with h | h
      · obtain ⟨c, hcm, hEq⟩ := List.mem_map.mp h
        have hcs : c = s := congrArg Prod.fst hEq
        exact hcs ▸ hcm
      · obtain ⟨p, _, hEq⟩ := List.mem_map.mp h
        have hbad : ("patient" : String) = "clinic" := congrArg Prod.snd hEq
        exact absurd hbad (by decide)
    obtain ⟨r, hr, hEq⟩ := List.mem_map.mp
      ((mem_firstSeen _ s).mp hsp)
    obtain ⟨r', hr', hEq'⟩ := List.mem_map.mp
      (top_clinics_subset rows K s hsc)
    exact hdisj r ((List.mem_filter.mp hr).1) r' hr'
      (by rw [hEq, hEq'])
  · intro e he
    have hd : ∀ x : String × String,
        (x ∈ ([] : List (String × String)) ∨
          x ∈ cohort_map_top_clinics rows K) →
        ∀ y : String × String,
          (y ∈ ([] : List (String × String)) ∨
            y ∈ cohort_map_top_clinics rows K) → x.1 ≠ y.2 := by
      intro x hx y hy
      rcases hx with hx | hx
      · simp at hx
      rcases hy with hy | hy
      · simp at hy
      exact hdisj x ((List.mem_filter.mp hx).1) y ((List.mem_filter.mp hy).1)
    obtain ⟨_, h2⟩ := foldl_addEdge_spec (cohort_map_top_clinics rows K) []
      hd List.nodup_nil
    have hres : e ∈ cohort_map_top_clinics rows K := by
      rcases (h2 e).mp he with h | h
      · simp at h
      · exact h
    constructor
    · apply hpat
      unfold unique_patients
      rw [mem_firstSeen]
      exact List.mem_map.mpr ⟨e, hres, rfl⟩
    · apply hclin
      exact List.elem_iff.mp (List.mem_filter.mp hres).2

/-- Witness for C10 on the spec example: the edge (p1, clinicA) joins a
patient-typed node to a clinic-typed node. -/
theorem graph_bipartite_witness :
    (∀ r ∈ exC7, ∀ r' ∈ exC7, r.1 ≠ r'.2) ∧
    (("p1", "patient") ∈ (buildGraph exC7 2).nodes ∧
      ("clinicA", "clinic") ∈ (buildGraph exC7 2).nodes) :=
  ⟨by decide,
    (graph_bipartite exC7 2 (by decide)).2.2 ("p1", "clinicA") (by decide)⟩

/-! ### Byte-string decoding

MomCare notebook, cell 15:
```
def decode_if_bytes(val):
    if isinstance(val, bytes):
        return val.decode(errors="ignore")
    return val
```
applied to the `birthDate` and `contact_organization_display` columns
(and inline for `patient_reference` / `identifier_value` / `period_start`)
before the merge.  A cell value is bytes, text, a number, or null.
`bytes.decode(errors="ignore")` is CPython's strict UTF-8 decoder that
drops the maximal subpart of every invalid sequence instead of raising. -/

inductive Value where
  | bytes (bs : List Nat)
  | text (s : List Char)
  | num (q : Int)
  | null
deriving DecidableEq

/-- A UTF-8 continuation byte. -/
def isCont (b : Nat) : Bool := 0x80 ≤ b && b ≤ 0xBF

/-- Lower bound of the first continuation byte for lead `b` (strict UTF-8
excludes overlong forms and surrogates). -/
def cont1Lo (b : Nat) : Nat :=
  if b = 0xE0 then 0xA0 else if b = 0xF0 then 0x90 else 0x80

/-- Upper bound of the first continuation byte for lead `b`. -/
def cont1Hi (b : Nat) : Nat :=
  if b = 0xED then 0x9F else if b = 0xF4 then 0x8F else 0xBF

def okCont1 (b b1 : Nat) : Bool := cont1Lo b ≤ b1 && b1 ≤ cont1Hi b

/-- Fuel-driven worker for `utf8DecodeIgnore` (every step consumes at
least one byte, so `bs.length` fuel always suffices). -/
def utf8DecodeIgnoreF : Nat → List Nat → List Char
  | _, [] => []
  | 0, _ => []
  | n + 1, b :: rest =>
    if b < 0x80 then Char.ofNat b :: utf8DecodeIgnoreF n rest
    else if b < 0xC2 then utf8DecodeIgnoreF n rest
    else if b ≤ 0xDF then
      match rest with
      | [] => []
      | b1 :: rest1 =>
        if isCont b1 then
          Char.ofNat ((b - 0xC0) * 0x40 + (b1 - 0x80)) ::
            utf8DecodeIgnoreF n rest1
        else utf8DecodeIgnoreF n (b1 :: rest1)
    else if b ≤ 0xEF then
      match rest with
      | [] => []
      | b1 :: rest1 =>
        if okCont1 b b1 then
          match rest1 with
          | [] => []
          | b2 :: rest2 =>
            if isCont b2 then
              Char.ofNat ((b - 0xE0) * 0x1000 + (b1 - 0x80) * 0x40 +
                  (b2 - 0x80)) :: utf8DecodeIgnoreF n rest2
            else utf8DecodeIgnoreF n (b2 :: rest2)
        else utf8DecodeIgnoreF n (b1 :: rest1)
    else if b ≤ 0xF4 then
      match rest with
      | [] => []
      | b1 :: rest1 =>
        if okCont1 b b1 then
          match rest1 with
          | [] => []
          | b2 :: rest2 =>
            if isCont b2 then
              match rest2 with
              | [] => []
              | b3 :: rest3 =>
                if isCont b3 then
                  Char.ofNat ((b - 0xF0) * 0x40000 + (b1 - 0x80) * 0x1000 +
                      (b2 - 0x80) * 0x40 + (b3 - 0x80)) ::
                    utf8DecodeIgnoreF n rest3
                else utf8DecodeIgnoreF n (b3 :: rest3)
            else utf8DecodeIgnoreF n (b2 :: rest2)
        else utf8DecodeIgnoreF n (b1 :: rest1)
    else utf8DecodeIgnoreF n rest

/-- Strict UTF-8 decoding with `errors="ignore"`: each invalid sequence's
maximal subpart is skipped and decoding continues. -/
def utf8DecodeIgnore (bs : List Nat) : List Char :=
  utf8DecodeIgnoreF bs.length bs

/-- The notebook's `decode_if_bytes`. -/
def decode_if_bytes : Value → Value
  | .bytes bs => .text (utf8DecodeIgnore bs)
  | v => v

def isBytes : Value → Bool
  | .bytes _ => true
  | _ => false

/-- A column decoded the way the notebook decodes columns before the
merge: `df[col].apply(decode_if_bytes)`. -/
def decodeColumn (col : List Value) : List Value :=
  col.map decode_if_bytes

/-- C8: decoding never fails — a bytes value always becomes a text value
(best-effort: invalid bytes are dropped, e.g. 0xFF in `a\xFFb` yields
"ab"), a decoded column contains no bytes values (so comparisons and the
merge see only decoded values), and non-bytes values pass through
unchanged. -/
theorem decode_if_bytes_total :
    (∀ bs : List Nat, decode_if_bytes (Value.bytes bs) =
      Value.text (utf8DecodeIgnore bs)) ∧
    (∀ v : Value, isBytes v = false → decode_if_bytes v = v) ∧
    (∀ (col : List Value) (v : Value), v ∈ decodeColumn col →
      isBytes v = false) ∧
    decode_if_bytes (Value.bytes [0x61, 0xFF, 0x62]) =
      Value.text ['a', 'b'] ∧
    decode_if_bytes (Value.bytes [0x61, 0xC3, 0xA9]) =
      Value.text ['a', 'é'] ∧
    decode_if_bytes (Value.num 3) = Value.num 3 := by
  refine ⟨fun bs => rfl, ?_, ?_, by decide, by decide, rfl⟩
  · intro v hv
    cases v with
    | bytes bs => simp [isBytes] at hv
    | text s => rfl
    | num q => rfl
    | null => rfl
  · intro col v hv
    obtain ⟨u, _, hEq⟩ := List.mem_map.mp hv
    cases u <;> rw [← hEq] <;> rfl

/-- Witness for C8: a numeric value is not bytes and passes through
unchanged. -/
theorem decode_if_bytes_total_witness :
    isBytes (Value.num 3) = false ∧
    decode_if_bytes (Value.num 3) = Value.num 3 :=
  ⟨by decide, decode_if_bytes_total.2.1 (Value.num 3) (by decide)⟩

end Notebooks
